import Mathlib

/-!
Verification development for a minimal append-only ledger (src/main.py):
a Merkle commitment engine, hash-linked blocks sealed by brute-force
proof-of-work, and whole-chain verification, together with balance folds.

The embedding is executable: SHA-256 is implemented concretely over byte
lists (modelling hashlib.sha256 on ASCII input), timestamps are modelled by
their canonical string form (the program only ever feeds str(timestamp) into
hashing, and datetime.fromisoformat inverts str on the values produced
here), and the unbounded proof-of-work while-loop is modelled with explicit
fuel, returning Option.
-/

/-- 32-bit truncation. -/
def w32 (n : Nat) : Nat := n % 4294967296

/-- Rotate a 32-bit word right by n bits. -/
def rotr (n x : Nat) : Nat := w32 ((x >>> n) ||| (x <<< (32 - n)))

/-- SHA-256 big sigma 0. -/
def bsig0 (x : Nat) : Nat := (rotr 2 x) ^^^ (rotr 13 x) ^^^ (rotr 22 x)

/-- SHA-256 big sigma 1. -/
def bsig1 (x : Nat) : Nat := (rotr 6 x) ^^^ (rotr 11 x) ^^^ (rotr 25 x)

/-- SHA-256 small sigma 0. -/
def ssig0 (x : Nat) : Nat := (rotr 7 x) ^^^ (rotr 18 x) ^^^ (x >>> 3)

/-- SHA-256 small sigma 1. -/
def ssig1 (x : Nat) : Nat := (rotr 17 x) ^^^ (rotr 19 x) ^^^ (x >>> 10)

/-- SHA-256 choice function; the complement is taken on 32 bits. -/
def chFn (x y z : Nat) : Nat := (x &&& y) ^^^ ((x ^^^ 4294967295) &&& z)

/-- SHA-256 majority function. -/
def majFn (x y z : Nat) : Nat := (x &&& y) ^^^ (x &&& z) ^^^ (y &&& z)

/-- SHA-256 round constants. -/
def shaK : List Nat :=
  [1116352408, 1899447441, 3049323471, 3921009573, 961987163,
   1508970993, 2453635748, 2870763221, 3624381080, 310598401,
   607225278, 1426881987, 1925078388, 2162078206, 2614888103,
   3248222580, 3835390401, 4022224774, 264347078, 604807628,
   770255983, 1249150122, 1555081692, 1996064986, 2554220882,
   2821834349, 2952996808, 3210313671, 3336571891, 3584528711,
   113926993, 338241895, 666307205, 773529912, 1294757372,
   1396182291, 1695183700, 1986661051, 2177026350, 2456956037,
   2730485921, 2820302411, 3259730800, 3345764771, 3516065817,
   3600352804, 4094571909, 275423344, 430227734, 506948616,
   659060556, 883997877, 958139571, 1322822218, 1537002063,
   1747873779, 1955562222, 2024104815, 2227730452, 2361852424,
   2428436474, 2756734187, 3204031479, 3329325298]

/-- SHA-256 initial hash values. -/
def shaH0 : List Nat :=
  [1779033703, 3144134277, 1013904242, 2773480762, 1359893119,
   2600822924, 528734635, 1541459225]

/-- Big-endian 8-byte encoding of a natural number. -/
def len8 (n : Nat) : List Nat :=
  [(n >>> 56) % 256, (n >>> 48) % 256, (n >>> 40) % 256, (n >>> 32) % 256,
   (n >>> 24) % 256, (n >>> 16) % 256, (n >>> 8) % 256, n % 256]

/-- SHA-256 padding of a byte list. -/
def padMsg (msg : List Nat) : List Nat :=
  msg ++ [128] ++ List.replicate ((119 - msg.length % 64) % 64) 0 ++ len8 (msg.length * 8)

/-- Pack bytes into big-endian 32-bit words. -/
def toWords : List Nat → List Nat
  | a :: b :: c :: d :: rest => (a * 16777216 + b * 65536 + c * 256 + d) :: toWords rest
  | _ => []

/-- Message schedule: extend 16 words to 64. -/
def extendW (w0 : Array Nat) : Array Nat :=
  (List.range 48).foldl
    (fun w i =>
      w.push (w32 (w.getD i 0 + ssig0 (w.getD (i + 1) 0) + w.getD (i + 9) 0 + ssig1 (w.getD (i + 14) 0))))
    w0

/-- The eight working variables of the SHA-256 compression loop. -/
structure ShaState where
  a : Nat
  b : Nat
  c : Nat
  d : Nat
  e : Nat
  f : Nat
  g : Nat
  h : Nat

/-- One SHA-256 compression round. -/
def roundStep (w : Array Nat) (st : ShaState) (i : Nat) : ShaState :=
  let t1 := w32 (st.h + bsig1 st.e + chFn st.e st.f st.g + shaK.getD i 0 + w.getD i 0)
  let t2 := w32 (bsig0 st.a + majFn st.a st.b st.c)
  ⟨w32 (t1 + t2), st.a, st.b, st.c, w32 (st.d + t1), st.e, st.f, st.g⟩

/-- Compress one 64-byte chunk into the running hash values. -/
def compress (hs : List Nat) (chunk : List Nat) : List Nat :=
  let w := extendW (toWords chunk).toArray
  let st0 : ShaState :=
    ⟨hs.getD 0 0, hs.getD 1 0, hs.getD 2 0, hs.getD 3 0, hs.getD 4 0, hs.getD 5 0, hs.getD 6 0, hs.getD 7 0⟩
  let st := (List.range 64).foldl (roundStep w) st0
  [w32 (hs.getD 0 0 + st.a), w32 (hs.getD 1 0 + st.b), w32 (hs.getD 2 0 + st.c),
   w32 (hs.getD 3 0 + st.d), w32 (hs.getD 4 0 + st.e), w32 (hs.getD 5 0 + st.f),
   w32 (hs.getD 6 0 + st.g), w32 (hs.getD 7 0 + st.h)]

/-- Split a byte list into 64-byte chunks; the fuel argument (instantiated
with the list length, an upper bound on the number of chunks) makes the
recursion structural. -/
def chunksAux : Nat → List Nat → List (List Nat)
  | 0, _ => []
  | _, [] => []
  | fuel + 1, l => l.take 64 :: chunksAux fuel (l.drop 64)

/-- SHA-256 digest of a byte list, as a natural number below 2 ^ 256. -/
def sha256Nat (msg : List Nat) : Nat :=
  let padded := padMsg msg
  let hs := (chunksAux padded.length padded).foldl compress shaH0
  hs.foldl (fun acc h => acc * 4294967296 + h) 0

/-- Lower-case hex digit. -/
def hexChar (n : Nat) : Char := Char.ofNat (if n < 10 then 48 + n else 87 + n)

/-- Fixed-width hex rendering: d hex digits of n, most significant first. -/
def hexAux : Nat → Nat → List Char → List Char
  | 0, _, acc => acc
  | d + 1, n, acc => hexAux d (n / 16) (hexChar (n % 16) :: acc)

/-- 64-hex-digit (256-bit) fixed-width rendering, as produced by hexdigest. -/
def natToHex64 (n : Nat) : String := String.mk (hexAux 64 n [])

/-- Model of hashlib.sha256(s.encode()).hexdigest() for ASCII strings. -/
def sha256hex (s : String) : String := natToHex64 (sha256Nat (s.data.map Char.toNat))

/-- A transfer record, as built by Blockchain.add_transaction. -/
structure Transaction where
  sender : String
  receiver : String
  amount : Int
deriving DecidableEq

/-- The single-quote character, used by the Python str form of a dict. -/
def sqChar : String := String.singleton (Char.ofNat 39)

/-- Wrap a string in single quotes. -/
def quo (s : String) : String := sqChar ++ s ++ sqChar

/-- Python str of a transaction dict, with insertion order
sender, receiver, amount: a brace-delimited, comma-separated rendering. -/
def reprTx (t : Transaction) : String :=
  "\x7b" ++ quo "sender" ++ ": " ++ quo t.sender ++ ", " ++ quo "receiver" ++ ": " ++
    quo t.receiver ++ ", " ++ quo "amount" ++ ": " ++ toString t.amount ++ "\x7d"

/-- Python str of a list of transactions. -/
def reprTxList (l : List Transaction) : String :=
  "[" ++ String.intercalate ", " (l.map reprTx) ++ "]"

/-- Python slice hash[:4], used by the difficulty check. -/
def take4 (s : String) : String := String.mk (s.data.take 4)

/-- MerkleTree.hash_pair: digest of the concatenation of two nodes. -/
def hash_pair (left right : String) : String := sha256hex (left ++ right)

/-- One level of MerkleTree.create_merkle_root: the loop
for i in range(0, len - 1, 2) pairs adjacent elements, and an odd final
element is paired with itself. -/
def new_level (transactions : List String) : List String :=
  (List.range (transactions.length / 2)).map
    (fun i => hash_pair (transactions.getD (2 * i) "") (transactions.getD (2 * i + 1) "")) ++
  (if transactions.length % 2 = 1 then
    [hash_pair (transactions.getLastD "") (transactions.getLastD "")]
   else [])

/-- MerkleTree.create_merkle_root, with fuel (instantiated with the list
length, an upper bound on the number of levels) making the recursion
structural: empty input gives the sentinel empty digest, a single input is
hashed directly, otherwise recurse on the combined next level. -/
def merkleAux : Nat → List String → String
  | 0, _ => ""
  | fuel + 1, transactions =>
    if transactions.length = 0 then ""
    else if transactions.length = 1 then sha256hex (transactions.headD "")
    else merkleAux fuel (new_level transactions)

/-- MerkleTree.create_merkle_root on serialized transactions. -/
def create_merkle_root (transactions : List String) : String :=
  merkleAux transactions.length transactions

/-- A block: header fields plus transaction payload. The merkle_root field
models merkle_tree.merkle_root of the source. -/
structure Block where
  timestamp : String
  transactions : List Transaction
  previous_hash : String
  merkle_root : String
  nonce : Nat
  hash : String
deriving DecidableEq

/-- Block.generate_hash: digest of the concatenation of the canonical string
forms of timestamp, transactions, previous_hash, nonce and the Merkle root.
The stored hash field is not an input. -/
def generate_hash (b : Block) : String :=
  sha256hex (b.timestamp ++ reprTxList b.transactions ++ b.previous_hash ++
    toString b.nonce ++ b.merkle_root)

/-- Block construction: Merkle root computed from the str form of each
transaction, nonce 0, hash computed once from the other fields. -/
def Block.init (ts : String) (txs : List Transaction) (prev : String) : Block :=
  let pre : Block := ⟨ts, txs, prev, create_merkle_root (txs.map reprTx), 0, ""⟩
  { pre with hash := generate_hash pre }

/-- Block.verify_transactions: recompute the Merkle root from the stored
transactions and compare with the stored root. -/
def verify_transactions (b : Block) : Bool :=
  decide (create_merkle_root (b.transactions.map reprTx) = b.merkle_root)

/-- The persisted record of a block. Fields are optional because a stored
record may lack keys; to_dict always produces all six. -/
structure BlockDict where
  timestamp : Option String
  transactions : Option (List Transaction)
  previous_hash : Option String
  nonce : Option Nat
  hash : Option String
  merkle_root : Option String
deriving DecidableEq

/-- Block.to_dict: the six persisted fields. -/
def to_dict (b : Block) : BlockDict :=
  ⟨some b.timestamp, some b.transactions, some b.previous_hash, some b.nonce,
   some b.hash, some b.merkle_root⟩

/-- Python dict key access: a missing key raises KeyError, modelled as an
error value. -/
def getKey (field : String) : Option α → Except String α
  | none => Except.error ("KeyError: " ++ field)
  | some v => Except.ok v

/-- from_dict: reconstruct a block from a stored record. The source
constructs a Block from the stored transactions and previous_hash and then
overwrites timestamp, nonce, hash and merkle_root from the record (the
MerkleTree built from the stored root stores it unchanged, and also for an
empty stored root the recomputed root of the empty sequence coincides), so
every field of the result comes from the record; keys are accessed in the
source order transactions, previous_hash, timestamp, nonce, hash,
merkle_root, and the first missing key raises. -/
def from_dict (data : BlockDict) : Except String Block := do
  let txs ← getKey "transactions" data.transactions
  let prev ← getKey "previous_hash" data.previous_hash
  let ts ← getKey "timestamp" data.timestamp
  let nonce ← getKey "nonce" data.nonce
  let h ← getKey "hash" data.hash
  let root ← getKey "merkle_root" data.merkle_root
  Except.ok ⟨ts, txs, prev, root, nonce, h⟩

/-- The ledger: sealed chain plus pending transaction buffer. -/
structure Blockchain where
  chain : List Block
  current_transactions : List Transaction
deriving DecidableEq

/-- Blockchain.create_genesis_block: empty transactions, sentinel
previous-hash "0". The sealer is not invoked on it. -/
def create_genesis_block (ts : String) : Block := Block.init ts [] "0"

/-- Blockchain construction: empty pending buffer and a chain holding only
the genesis block. -/
def Blockchain.init (ts : String) : Blockchain := ⟨[create_genesis_block ts], []⟩

/-- Blockchain.add_transaction: append a record to the pending buffer. -/
def add_transaction (sender receiver : String) (amount : Int) (bc : Blockchain) : Blockchain :=
  { bc with current_transactions := bc.current_transactions ++ [⟨sender, receiver, amount⟩] }

/-- Blockchain.proof_of_work: while the stored hash does not start with
"0000", increment the nonce and recompute the hash; return the block
together with the returned hash. The while-loop is modelled with fuel
counting the remaining predicate tests; None models non-termination within
the given fuel. -/
def proof_of_work : Nat → Block → Option (Block × String)
  | 0, _ => none
  | fuel + 1, b =>
    if take4 b.hash = "0000" then some (b, b.hash)
    else
      proof_of_work fuel
        ({ b with nonce := b.nonce + 1,
                  hash := generate_hash { b with nonce := b.nonce + 1 } })

/-- Blockchain.add_block: build a block from the pending buffer and the last
stored hash, seal it, append it, clear the buffer. The last-element access
chain[-1] fails on an empty chain, and sealing may exhaust its fuel; both
are modelled as None. -/
def add_block (fuel : Nat) (ts : String) (bc : Blockchain) : Option Blockchain :=
  match bc.chain.getLast? with
  | none => none
  | some previous_block =>
    let new_block := Block.init ts bc.current_transactions previous_block.hash
    match proof_of_work fuel new_block with
    | none => none
    | some (b, h) => some ⟨bc.chain ++ [{ b with hash := h }], []⟩

/-- One transaction applied to a running balance: subtract the amount when
the person is the sender, add it when the person is the receiver. -/
def applyTx (person : String) (balance : Int) (t : Transaction) : Int :=
  let balance := if t.sender = person then balance - t.amount else balance
  if t.receiver = person then balance + t.amount else balance

/-- Blockchain.get_balance: fold over every transaction of every block. -/
def get_balance (bc : Blockchain) (person : String) : Int :=
  bc.chain.foldl (fun bal b => b.transactions.foldl (applyTx person) bal) 0

/-- Python max applied to a possibly minus-infinite left argument (the
float minus infinity seed) and an integer right argument. -/
def pyMax (m : WithBot Int) (b : Int) : WithBot Int :=
  match m with
  | none => some b
  | some a => some (max a b)

/-- The three accumulators of get_min_max_balance. -/
structure MinMaxState where
  min_balance : Int
  max_balance : WithBot Int
  balance : Int
deriving DecidableEq

/-- Loop body of get_min_max_balance: update the balance, then the running
minimum and maximum, after every transaction. -/
def minMaxStep (person : String) (st : MinMaxState) (t : Transaction) : MinMaxState :=
  let balance := applyTx person st.balance t
  ⟨min st.min_balance balance, pyMax st.max_balance balance, balance⟩

/-- Blockchain.get_min_max_balance: the running minimum is seeded at 0 and
the running maximum at minus infinity; both are updated after every
transaction of every block. -/
def get_min_max_balance (bc : Blockchain) (person : String) : Int × WithBot Int :=
  let st := bc.chain.foldl (fun st b => b.transactions.foldl (minMaxStep person) st)
    (⟨0, ⊥, 0⟩ : MinMaxState)
  (st.min_balance, st.max_balance)

/-- Loop body of Blockchain.verify_chain for indices 1 and above: compare
the stored hash with a fresh recomputation, then the stored previous_hash
with the predecessor stored hash; false at the first mismatch. -/
def verify_links : Block → List Block → Bool
  | _, [] => true
  | previous_block, current_block :: rest =>
    if current_block.hash ≠ generate_hash current_block then false
    else if current_block.previous_hash ≠ previous_block.hash then false
    else verify_links current_block rest

/-- Blockchain.verify_chain: the loop starts at index 1, so an empty or
one-block chain passes vacuously. -/
def verify_chain (bc : Blockchain) : Bool :=
  match bc.chain with
  | [] => true
  | b :: rest => verify_links b rest

/-- Blockchain.verify_all_transactions: every block, including genesis,
passes verify_transactions. -/
def verify_all_transactions (bc : Blockchain) : Bool :=
  bc.chain.all verify_transactions

/-- Ledger states produced by construction followed by any sequence of
add_transaction and successful add_block calls. -/
inductive Reachable : Blockchain → Prop
  | start (ts : String) : Reachable (Blockchain.init ts)
  | tx (s r : String) (a : Int) {bc : Blockchain} :
      Reachable bc → Reachable (add_transaction s r a bc)
  | blk (fuel : Nat) (ts : String) {bc bc2 : Blockchain} :
      Reachable bc → add_block fuel ts bc = some bc2 → Reachable bc2

/-- Specification-side pairing step: combine adjacent elements strictly left
to right, pairing a final unpaired element with itself. -/
def chunkCombine : List String → List String
  | [] => []
  | [a] => [hash_pair a a]
  | a :: b :: rest => hash_pair a b :: chunkCombine rest

/-- Specification-side Merkle commitment, with the same fuel discipline:
sentinel empty digest for no inputs, the digest of the single element for
one input, otherwise recurse on the pairwise-combined level until one digest
remains. -/
def specMerkleAux : Nat → List String → String
  | 0, _ => ""
  | fuel + 1, l =>
    match l with
    | [] => ""
    | [a] => sha256hex a
    | l => specMerkleAux fuel (chunkCombine l)

/-- Specification-side Merkle commitment of an ordered sequence. -/
def merkle_root_spec (l : List String) : String := specMerkleAux l.length l

/-- All transactions of the chain in chain order. -/
def chainTransactions (bc : Blockchain) : List Transaction :=
  (bc.chain.map Block.transactions).flatten

/-- Cumulative balance observed after each transaction of a list, starting
from a given balance. -/
def balancesAfter (person : String) (bal : Int) : List Transaction → List Int
  | [] => []
  | t :: l => applyTx person bal t :: balancesAfter person (applyTx person bal t) l

/-- Specification-side list of cumulative balances observed after each
transaction, in chain order, seeded at 0. -/
def runningBalances (bc : Blockchain) (person : String) : List Int :=
  balancesAfter person 0 (chainTransactions bc)

/-- Hash linkage of one block to its predecessor: the stored previous_hash
equals the predecessor stored hash. -/
def linkedTo (previous current : Block) : Prop :=
  current.previous_hash = previous.hash

/-- The two checks verify_chain performs for each block at index 1 or
above: stored hash equals a fresh recomputation, and linkage holds. -/
def linkOK (previous current : Block) : Prop :=
  current.hash = generate_hash current ∧ linkedTo previous current

/-- Placeholder block used as the default of last-element lookups. -/
def dummyBlock : Block := ⟨"", [], "", "", 0, ""⟩

instance : Inhabited Block := ⟨dummyBlock⟩

/-- Whether a reconstruction attempt raised (KeyError), as opposed to
returning a block. -/
def isError : Except String Block → Bool
  | Except.error _ => true
  | Except.ok _ => false

/-- Concrete genesis timestamp used by the ground instances. -/
def ts0 : String := "2024-01-01 00:00:00"

/-- The hex digest of the genesis block built at ts0. -/
def genesisHashHex : String :=
  "986b6e87734610b54b05f7fc8e87a425c762ff29e0cb957760a0be1b9e6196b4"

/-- A concrete transfer record. -/
def txAB : Transaction := ⟨"Alice", "Bob", 50⟩

/-- The Merkle root of the single serialized record txAB. -/
def rootAB : String :=
  "d6c7e5d65a23f3d29831531f5a2b26eb7d43f653b07d2c0ad66bb680f03cc73f"

/-- A timestamp at which the block holding txAB on top of the ts0 genesis
already satisfies the difficulty at nonce 0, so sealing returns at once. -/
def ts1 : String := "2024-01-01 00:00:01.115876"

/-- The sealed hash of the block built at ts1. -/
def minedHashHex : String :=
  "0000c36074a5ee44e956088a0c785d23aafd18c430e0dd8ecc226ffe88e4da61"

/-- The genesis block at ts0, with its digest written out. -/
def genesisBlock : Block := ⟨ts0, [], "0", "", 0, genesisHashHex⟩

/-- The sealed second block at ts1, with its digest written out. -/
def minedBlock : Block := ⟨ts1, [txAB], genesisHashHex, rootAB, 0, minedHashHex⟩

/-- The two-block ledger reached from Blockchain.init ts0 by adding txAB and
calling add_block at ts1. -/
def bcMined : Blockchain := ⟨[genesisBlock, minedBlock], []⟩

/-- A block record carrying a forged hash that satisfies the difficulty
predicate without matching a recomputation. -/
def forgedBlock : Block := ⟨"t", [], "p", "", 0, "0000"⟩

/-- A block whose stored hash disagrees with its recomputation. -/
def bogusBlock : Block := ⟨"t", [], "0", "", 0, "bogus"⟩

/-- A block with one transaction and untouched header fields, for balance
statements that never read hashes. -/
def plainTxBlock : Block := ⟨"t", [⟨"Ann", "Ben", 7⟩], "p", "r", 0, "h"⟩

/-- A ledger with no transactions anywhere. -/
def emptyTxLedger : Blockchain := ⟨[⟨"t", [], "0", "", 0, "h"⟩], []⟩

/-- A stored record with every key missing. -/
def emptyDict : BlockDict := ⟨none, none, none, none, none, none⟩

/-- The length of a packed character list is the string length. -/
theorem string_mk_length (l : List Char) : (String.mk l).length = l.length := rfl

/-- hexAux produces exactly d digits in front of the accumulator. -/
theorem hexAux_length (d : Nat) : ∀ (n : Nat) (acc : List Char),
    (hexAux d n acc).length = d + acc.length := by
  induction d with
  | zero => intro n acc; simp [hexAux]
  | succ d ih =>
    intro n acc
    rw [hexAux, ih]
    simp
    omega

/-- Every digest rendered by the embedding has 64 hex characters. -/
theorem sha256hex_length (s : String) : (sha256hex s).length = 64 := by
  rw [sha256hex, natToHex64, string_mk_length, hexAux_length]
  rfl

/-- The header hash recomputation has 64 hex characters. -/
theorem generate_hash_length (b : Block) : (generate_hash b).length = 64 :=
  sha256hex_length _

/-- The stored hash field is not an input of the recomputation. -/
theorem generate_hash_set_hash (b : Block) (h : String) :
    generate_hash { b with hash := h } = generate_hash b := rfl

/-- A freshly constructed block stores exactly the recomputation of its own
fields. -/
theorem Block_init_hash (ts : String) (txs : List Transaction) (prev : String) :
    (Block.init ts txs prev).hash = generate_hash (Block.init ts txs prev) := rfl

/-- The pairing level of the source loop agrees with the direct adjacent
pairing: two leading elements are combined and the loop continues. -/
theorem new_level_cons_cons (a b : String) (r : List String) :
    new_level (a :: b :: r) = hash_pair a b :: new_level r := by
  unfold new_level
  simp only [List.length_cons]
  have h2 : (r.length + 1 + 1) / 2 = r.length / 2 + 1 := by omega
  rw [h2, List.range_succ_eq_map]
  simp only [List.map_cons, List.map_map, List.cons_append]
  have hmap : List.map
      ((fun i => hash_pair ((a :: b :: r).getD (2 * i) "") ((a :: b :: r).getD (2 * i + 1) "")) ∘
        Nat.succ) (List.range (r.length / 2)) =
      List.map (fun i => hash_pair (r.getD (2 * i) "") (r.getD (2 * i + 1) ""))
        (List.range (r.length / 2)) := by
    apply List.map_congr_left
    intro i _
    have e1 : 2 * (i + 1) = 2 * i + 1 + 1 := by omega
    have e2 : 2 * (i + 1) + 1 = 2 * i + 1 + 1 + 1 := by omega
    simp only [Function.comp_apply, Nat.succ_eq_add_one, e1, e2, List.getD_cons_succ]
  have hif : (if (r.length + 1 + 1) % 2 = 1 then
        [hash_pair ((a :: b :: r).getLastD "") ((a :: b :: r).getLastD "")] else []) =
      (if r.length % 2 = 1 then [hash_pair (r.getLastD "") (r.getLastD "")] else []) := by
    by_cases hodd : r.length % 2 = 1
    · rw [if_pos (by omega : (r.length + 1 + 1) % 2 = 1), if_pos hodd]
      cases r with
      | nil => simp at hodd
      | cons c r2 => simp [List.getLastD_cons]
    · rw [if_neg (by omega : ¬(r.length + 1 + 1) % 2 = 1), if_neg hodd]
  rw [hmap, hif]
  norm_num [List.getD_cons_zero, List.getD_cons_succ]

/-- The pairing level of the source loop is the specification-side adjacent
combination. -/
theorem new_level_eq_chunkCombine : ∀ l : List String, new_level l = chunkCombine l
  | [] => by simp [new_level, chunkCombine]
  | [a] => by simp [new_level, chunkCombine]
  | a :: b :: r => by
    rw [new_level_cons_cons, new_level_eq_chunkCombine r, chunkCombine]

/-- One combination level has half the elements, rounded up. -/
theorem chunkCombine_length : ∀ l : List String, (chunkCombine l).length = (l.length + 1) / 2
  | [] => by simp [chunkCombine]
  | [_] => by simp [chunkCombine]
  | _ :: _ :: r => by
    simp only [chunkCombine, List.length_cons, chunkCombine_length r]
    omega

/-- With enough fuel, the source Merkle reduction and the
specification-side reduction coincide. -/
theorem merkleAux_eq_specMerkleAux :
    ∀ (fuel : Nat) (l : List String), l.length ≤ fuel → merkleAux fuel l = specMerkleAux fuel l := by
  intro fuel
  induction fuel with
  | zero =>
    intro l hl
    have : l = [] := List.length_eq_zero.mp (Nat.le_zero.mp hl)
    subst this
    rfl
  | succ f ih =>
    intro l hl
    match l with
    | [] => rfl
    | [a] => rfl
    | a :: b :: r =>
      have e1 : merkleAux (f + 1) (a :: b :: r) = merkleAux f (new_level (a :: b :: r)) := by
        rw [merkleAux]
        rw [if_neg (by simp), if_neg (by simp)]
      have e2 : specMerkleAux (f + 1) (a :: b :: r) =
          specMerkleAux f (chunkCombine (a :: b :: r)) := rfl
      rw [e1, e2, new_level_eq_chunkCombine]
      apply ih
      rw [chunkCombine_length]
      simp only [List.length_cons] at hl ⊢
      omega

/-- C5: the Merkle commitment of an ordered sequence of serialized strings
equals the specification-side description: the sentinel empty digest for no
inputs, the digest of the single element for one input, and otherwise the
repeated strictly left-to-right adjacent combination, pairing an odd final
element with itself at every level, until one digest remains. -/
theorem C5_merkle_root_spec (l : List String) : create_merkle_root l = merkle_root_spec l :=
  merkleAux_eq_specMerkleAux l.length l (Nat.le_refl _)

/-- The verification loop succeeds exactly when every adjacent pair passes
both checks. -/
theorem verify_links_iff (rest : List Block) : ∀ p : Block,
    verify_links p rest = true ↔ List.Chain' linkOK (p :: rest) := by
  induction rest with
  | nil => intro p; simp [verify_links]
  | cons c r ih =>
    intro p
    rw [List.chain'_cons, verify_links]
    split_ifs with h1 h2
    · simp only [Bool.false_eq_true, false_iff]
      intro hc
      exact h1 hc.1.1
    · simp only [Bool.false_eq_true, false_iff]
      intro hc
      exact h2 hc.1.2
    · push_neg at h1 h2
      rw [ih c]
      exact ⟨fun hr => ⟨⟨h1, h2⟩, hr⟩, fun hc => hc.2⟩

/-- verify_chain succeeds exactly when the whole chain is pairwise
link-consistent. -/
theorem verify_chain_iff_chain (bc : Blockchain) :
    verify_chain bc = true ↔ List.Chain' linkOK bc.chain := by
  rcases bc with ⟨chain, cur⟩
  cases chain with
  | nil => simp [verify_chain]
  | cons b rest => simpa [verify_chain] using verify_links_iff rest b

/-- Index form: verify_chain succeeds exactly when every block at an index
1 or above stores the recomputation of its own fields and links to the
stored hash of its predecessor. -/
theorem verify_chain_eq_true_iff (bc : Blockchain) :
    verify_chain bc = true ↔
      ∀ (i : Nat) (h2 : i + 1 < bc.chain.length),
        (bc.chain.get ⟨i + 1, h2⟩).hash = generate_hash (bc.chain.get ⟨i + 1, h2⟩) ∧
        (bc.chain.get ⟨i + 1, h2⟩).previous_hash =
          (bc.chain.get ⟨i, Nat.lt_of_succ_lt h2⟩).hash := by
  rw [verify_chain_iff_chain, List.chain'_iff_get]
  constructor
  · intro h i h2
    have hi : i < bc.chain.length - 1 := by omega
    have hh := h i hi
    exact ⟨hh.1, hh.2⟩
  · intro h i hi
    have h2 : i + 1 < bc.chain.length := by omega
    have hh := h i h2
    exact ⟨hh.1, hh.2⟩

/-- Full contract of the fuelled sealing loop: the returned value is the
stored hash, the stored hash satisfies the difficulty predicate, the nonce
never decreases, all other fields are untouched, hash-consistency is
preserved, and a block already satisfying the predicate is returned
unchanged. -/
theorem proof_of_work_spec : ∀ (fuel : Nat) (b b2 : Block) (h : String),
    proof_of_work fuel b = some (b2, h) →
    h = b2.hash ∧ take4 b2.hash = "0000" ∧ b.nonce ≤ b2.nonce ∧
    b2.timestamp = b.timestamp ∧ b2.transactions = b.transactions ∧
    b2.previous_hash = b.previous_hash ∧ b2.merkle_root = b.merkle_root ∧
    (b.hash = generate_hash b → b2.hash = generate_hash b2) ∧
    (take4 b.hash = "0000" → b2 = b ∧ h = b.hash) := by
  intro fuel
  induction fuel with
  | zero =>
    intro b b2 h hrun
    simp [proof_of_work] at hrun
  | succ f ih =>
    intro b b2 h hrun
    rw [proof_of_work] at hrun
    by_cases h0 : take4 b.hash = "0000"
    · rw [if_pos h0, Option.some_inj, Prod.ext_iff] at hrun
      obtain ⟨hb, hh⟩ := hrun
      subst hb
      subst hh
      exact ⟨rfl, h0, Nat.le_refl _, rfl, rfl, rfl, rfl, fun hc => hc, fun _ => ⟨rfl, rfl⟩⟩
    · rw [if_neg h0] at hrun
      obtain ⟨e1, e2, e3, e4, e5, e6, e7, e8, _⟩ := ih _ b2 h hrun
      refine ⟨e1, e2, ?_, e4, e5, e6, e7, ?_, ?_⟩
      · exact Nat.le_of_succ_le e3
      · intro _
        exact e8 rfl
      · intro hc
        exact absurd hc h0

/-- Full contract of a successful add_block call: exactly one block is
appended, built from a snapshot of the pending buffer and the stored hash
of the previous last block, sealed and hash-consistent, and the pending
buffer is cleared. -/
theorem add_block_spec (fuel : Nat) (ts : String) (bc bc2 : Blockchain) (last : Block)
    (hlast : bc.chain.getLast? = some last)
    (hrun : add_block fuel ts bc = some bc2) :
    bc2.chain = bc.chain ++ [bc2.chain.getLastD dummyBlock] ∧
    (bc2.chain.getLastD dummyBlock).previous_hash = last.hash ∧
    (bc2.chain.getLastD dummyBlock).transactions = bc.current_transactions ∧
    (bc2.chain.getLastD dummyBlock).timestamp = ts ∧
    (bc2.chain.getLastD dummyBlock).hash = generate_hash (bc2.chain.getLastD dummyBlock) ∧
    take4 (bc2.chain.getLastD dummyBlock).hash = "0000" ∧
    bc2.current_transactions = [] := by
  simp only [add_block, hlast] at hrun
  cases hp : proof_of_work fuel (Block.init ts bc.current_transactions last.hash) with
  | none =>
    rw [hp] at hrun
    simp at hrun
  | some bh =>
    obtain ⟨b0, h⟩ := bh
    rw [hp] at hrun
    simp only [Option.some_inj] at hrun
    obtain ⟨e1, e2, _, e4, e5, e6, e7, e8, _⟩ :=
      proof_of_work_spec fuel (Block.init ts bc.current_transactions last.hash) b0 h hp
    have hb0 : ({ b0 with hash := h } : Block) = b0 := by rw [e1]
    rw [hb0] at hrun
    subst hrun
    have hlastd : ((bc.chain ++ [b0]).getLastD dummyBlock) = b0 := by
      rw [List.getLastD_eq_getLast?, List.getLast?_concat]
      rfl
    refine ⟨by simp [hlastd], ?_, ?_, ?_, ?_, ?_, rfl⟩
    · rw [hlastd]; exact e6
    · rw [hlastd]; exact e5
    · rw [hlastd]; exact e4
    · rw [hlastd]; exact e8 (Block_init_hash ts bc.current_transactions last.hash)
    · rw [hlastd]; exact e2

/-- Every reachable ledger has a nonempty chain, hash-consistent blocks,
and intact linkage. -/
theorem reachable_invariant (bc : Blockchain) (hr : Reachable bc) :
    bc.chain ≠ [] ∧ (∀ b ∈ bc.chain, b.hash = generate_hash b) ∧
      List.Chain' linkedTo bc.chain := by
  induction hr with
  | start ts =>
    refine ⟨by simp [Blockchain.init], ?_, by simp [Blockchain.init]⟩
    intro b hb
    simp only [Blockchain.init, List.mem_singleton] at hb
    subst hb
    exact Block_init_hash ts [] "0"
  | tx s r a hr ih => exact ih
  | blk fuel ts hr heq ih =>
    rename_i bc1 bc2
    obtain ⟨hne, hcons, hlink⟩ := ih
    obtain ⟨last, hlast⟩ : ∃ l, bc1.chain.getLast? = some l := by
      cases hl : bc1.chain.getLast? with
      | none => exact absurd (List.getLast?_eq_none_iff.mp hl) hne
      | some l => exact ⟨l, rfl⟩
    obtain ⟨hchain, hprev, _, _, hhash, _, _⟩ :=
      add_block_spec fuel ts bc1 bc2 last hlast heq
    refine ⟨by rw [hchain]; simp, ?_, ?_⟩
    · intro b hb
      rw [hchain] at hb
      rcases List.mem_append.mp hb with hold | hnew
      · exact hcons b hold
      · rw [List.mem_singleton.mp hnew]
        exact hhash
    · rw [hchain]
      apply List.Chain'.append hlink (List.chain'_singleton _)
      intro x hx y hy
      rw [hlast] at hx
      simp only [Option.mem_def, Option.some_inj] at hx
      simp only [List.head?_cons, Option.mem_def, Option.some_inj] at hy
      subst hx
      subst hy
      exact hprev

set_option maxRecDepth 100000 in
/-- Concrete successful add_block run: at timestamp ts1 the freshly built
block already satisfies the difficulty at nonce 0, so one predicate test
suffices. -/
theorem add_block_mined :
    add_block 1 ts1 (add_transaction "Alice" "Bob" 50 (Blockchain.init ts0)) = some bcMined := by
  decide

/-- The concrete two-block ledger is produced by the public operations. -/
theorem reachable_bcMined : Reachable bcMined :=
  Reachable.blk 1 ts1 (Reachable.tx "Alice" "Bob" 50 (Reachable.start ts0)) add_block_mined

/-- C2: corrected form. Construction yields exactly one genesis block with
an empty transaction list, the sentinel previous-hash "0", nonce 0, an
empty pending buffer, and a stored hash equal to the recomputation of its
fields; the genesis block is never sealed, so nothing forces its hash to
satisfy the difficulty predicate. -/
theorem C2_genesis_construction (ts : String) :
    (Blockchain.init ts).chain = [create_genesis_block ts] ∧
    (Blockchain.init ts).current_transactions = [] ∧
    (create_genesis_block ts).transactions = [] ∧
    (create_genesis_block ts).previous_hash = "0" ∧
    (create_genesis_block ts).nonce = 0 ∧
    (create_genesis_block ts).hash = generate_hash (create_genesis_block ts) :=
  ⟨rfl, rfl, rfl, rfl, rfl, rfl⟩

set_option maxRecDepth 100000 in
/-- C2: counterexample to the claim as stated. At the concrete construction
timestamp ts0, the stored hash of the freshly built genesis block does not
satisfy the difficulty predicate: its leading 4 hex characters are not
"0000", because create_genesis_block never invokes the sealer. -/
theorem C2_counterexample :
    (Blockchain.init ts0).chain = [create_genesis_block ts0] ∧
    take4 (create_genesis_block ts0).hash ≠ "0000" := by
  exact ⟨rfl, by decide⟩

/-- C4: amended contract of the sealer. For any block whose stored hash
equals the recomputation of its fields on entry (as holds for every block
the program passes in), a successful sealing run returns the stored hash,
which satisfies the difficulty predicate and equals a fresh recomputation;
the nonce never decreases (the search continues from the current nonce),
and a block already satisfying the predicate is returned unchanged. -/
theorem C4_proof_of_work_contract (fuel : Nat) (b b2 : Block) (h : String)
    (hcons : b.hash = generate_hash b)
    (hrun : proof_of_work fuel b = some (b2, h)) :
    take4 b2.hash = "0000" ∧ b2.hash = generate_hash b2 ∧ h = b2.hash ∧
    b.nonce ≤ b2.nonce ∧ (take4 b.hash = "0000" → b2 = b ∧ h = b.hash) := by
  obtain ⟨e1, e2, e3, _, _, _, _, e8, e9⟩ := proof_of_work_spec fuel b b2 h hrun
  exact ⟨e2, e8 hcons, e1, e3, e9⟩

set_option maxRecDepth 100000 in
/-- C4: witness. The block built at ts1 on top of the ts0 genesis hash is
entry-consistent and seals within one predicate test. -/
theorem C4_witness :
    take4 (Block.init ts1 [txAB] genesisHashHex).hash = "0000" ∧
    minedHashHex = (Block.init ts1 [txAB] genesisHashHex).hash := by
  have hrun : proof_of_work 1 (Block.init ts1 [txAB] genesisHashHex) =
      some (Block.init ts1 [txAB] genesisHashHex, minedHashHex) := by decide
  have hc := C4_proof_of_work_contract 1 (Block.init ts1 [txAB] genesisHashHex)
    (Block.init ts1 [txAB] genesisHashHex) minedHashHex
    (Block_init_hash ts1 [txAB] genesisHashHex) hrun
  exact ⟨hc.1, hc.2.2.1⟩

/-- C4: counterexample to the claim as stated. A block whose stored hash is
the forged string "0000" is returned by the sealer untouched, yet its
stored hash differs from a fresh recomputation of its fields, so the
returned hash does not equal a recomputation. -/
theorem C4_counterexample :
    proof_of_work 1 forgedBlock = some (forgedBlock, "0000") ∧
    forgedBlock.hash ≠ generate_hash forgedBlock := by
  refine ⟨rfl, ?_⟩
  intro e
  have hl := congrArg String.length e
  rw [generate_hash_length] at hl
  exact absurd hl (by decide)

/-- C6: verify_chain returns true exactly when every block at index 1 or
above stores the recomputation of its own current fields and its
previous_hash equals the predecessor stored hash; the genesis block at
index 0 is never checked against a recomputation, so a one-block chain
whose only inconsistency is the genesis header-hash still verifies true. -/
theorem C6_verify_chain_iff :
    (∀ bc : Blockchain, verify_chain bc = true ↔
      ∀ (i : Nat) (h2 : i + 1 < bc.chain.length),
        (bc.chain.get ⟨i + 1, h2⟩).hash = generate_hash (bc.chain.get ⟨i + 1, h2⟩) ∧
        (bc.chain.get ⟨i + 1, h2⟩).previous_hash =
          (bc.chain.get ⟨i, Nat.lt_of_succ_lt h2⟩).hash) ∧
    (verify_chain ⟨[bogusBlock], []⟩ = true ∧ bogusBlock.hash ≠ generate_hash bogusBlock) := by
  refine ⟨verify_chain_eq_true_iff, rfl, ?_⟩
  intro e
  have hl := congrArg String.length e
  rw [generate_hash_length] at hl
  exact absurd hl (by decide)

/-- C6: witness. The characterization applied to a concrete one-block
ledger, whose index range above 0 is empty. -/
theorem C6_witness : verify_chain emptyTxLedger = true := by
  rw [C6_verify_chain_iff.1 emptyTxLedger]
  intro i h2
  simp only [emptyTxLedger, List.length_singleton] at h2
  omega

/-- C3: amended tamper-detection statement. On every reachable ledger,
verify_chain returns true; replacing the stored hash of the block at any
index by a different value flips the verdict to false whenever the index
is at least 1 or the chain has at least two blocks, and replacing the
stored previous_hash at any index at least 1 flips the verdict to false.
The two remaining cases (the genesis previous_hash, and the genesis hash
of a one-block chain) are never examined by the loop. -/
theorem C3_tamper_detection (bc : Blockchain) (hr : Reachable bc) :
    verify_chain bc = true ∧
    (∀ (i : Nat) (hi : i < bc.chain.length) (nh : String),
      nh ≠ (bc.chain.get ⟨i, hi⟩).hash → (1 ≤ i ∨ 2 ≤ bc.chain.length) →
      verify_chain ⟨bc.chain.set i { bc.chain.get ⟨i, hi⟩ with hash := nh },
        bc.current_transactions⟩ = false) ∧
    (∀ (i : Nat) (hi : i < bc.chain.length) (np : String),
      np ≠ (bc.chain.get ⟨i, hi⟩).previous_hash → 1 ≤ i →
      verify_chain ⟨bc.chain.set i { bc.chain.get ⟨i, hi⟩ with previous_hash := np },
        bc.current_transactions⟩ = false) := by
  obtain ⟨hne, hcons, hlink⟩ := reachable_invariant bc hr
  have hlinkget := List.chain'_iff_get.mp hlink
  refine ⟨?_, ?_, ?_⟩
  · rw [verify_chain_eq_true_iff bc]
    intro i h2
    refine ⟨hcons _ (List.get_mem _ _ _), ?_⟩
    exact hlinkget i (by omega)
  · intro i hi nh hnh hcase
    rw [Bool.eq_false_iff]
    intro hv
    have hchar := (verify_chain_eq_true_iff _).mp hv
    by_cases hi1 : 1 ≤ i
    · obtain ⟨j, rfl⟩ : ∃ j, i = j + 1 := ⟨i - 1, by omega⟩
      have h2 : j + 1 < (bc.chain.set (j + 1)
          { bc.chain.get ⟨j + 1, hi⟩ with hash := nh }).length := by
        simpa using hi
      have hc := (hchar j h2).1
      have hget : (bc.chain.set (j + 1) { bc.chain.get ⟨j + 1, hi⟩ with hash := nh }).get
          ⟨j + 1, h2⟩ = { bc.chain.get ⟨j + 1, hi⟩ with hash := nh } := by
        simp [List.get_eq_getElem, List.getElem_set_self]
      rw [hget] at hc
      rw [generate_hash_set_hash] at hc
      exact hnh (hc.trans (hcons _ (List.get_mem _ _ _)).symm)
    · have hi0 : i = 0 := by omega
      subst hi0
      have hlen2 : 2 ≤ bc.chain.length := by
        rcases hcase with h | h
        · omega
        · exact h
      have h2 : 0 + 1 < (bc.chain.set 0
          { bc.chain.get ⟨0, hi⟩ with hash := nh }).length := by
        simpa using hlen2
      have hc := (hchar 0 h2).2
      have hget1 : (bc.chain.set 0 { bc.chain.get ⟨0, hi⟩ with hash := nh }).get
          ⟨0 + 1, h2⟩ = bc.chain.get ⟨1, by omega⟩ := by
        simp [List.get_eq_getElem, List.getElem_set_ne (by omega : (0 : Nat) ≠ 1)]
      have hget0 : (bc.chain.set 0 { bc.chain.get ⟨0, hi⟩ with hash := nh }).get
          ⟨0, Nat.lt_of_succ_lt h2⟩ = { bc.chain.get ⟨0, hi⟩ with hash := nh } := by
        simp [List.get_eq_getElem, List.getElem_set_self]
      rw [hget1, hget0] at hc
      have horig := hlinkget 0 (by omega)
      have : nh = (bc.chain.get ⟨0, hi⟩).hash := by
        have h01 : (bc.chain.get ⟨1, by omega⟩).previous_hash =
            (bc.chain.get ⟨0, hi⟩).hash := horig
        exact (h01.symm.trans hc).symm
      exact hnh this
  · intro i hi np hnp hi1
    rw [Bool.eq_false_iff]
    intro hv
    have hchar := (verify_chain_eq_true_iff _).mp hv
    obtain ⟨j, rfl⟩ : ∃ j, i = j + 1 := ⟨i - 1, by omega⟩
    have h2 : j + 1 < (bc.chain.set (j + 1)
        { bc.chain.get ⟨j + 1, hi⟩ with previous_hash := np }).length := by
      simpa using hi
    have hc := (hchar j h2).2
    have hget : (bc.chain.set (j + 1)
        { bc.chain.get ⟨j + 1, hi⟩ with previous_hash := np }).get ⟨j + 1, h2⟩ =
        { bc.chain.get ⟨j + 1, hi⟩ with previous_hash := np } := by
      simp [List.get_eq_getElem, List.getElem_set_self]
    have hgetj : (bc.chain.set (j + 1)
        { bc.chain.get ⟨j + 1, hi⟩ with previous_hash := np }).get
        ⟨j, Nat.lt_of_succ_lt h2⟩ = bc.chain.get ⟨j, by omega⟩ := by
      simp [List.get_eq_getElem, List.getElem_set_ne (by omega : j + 1 ≠ j)]
    rw [hget, hgetj] at hc
    have horig := hlinkget j (by omega)
    exact hnp (hc.trans horig.symm)

/-- C3: counterexample to the claim as stated. On the freshly built
one-block chain at ts0, replacing the stored hash of the genesis block
(index 0) by a different value still leaves verify_chain true, because the
verification loop starts at index 1 and a one-block chain passes
vacuously. -/
theorem C3_counterexample :
    verify_chain ⟨[{ create_genesis_block ts0 with hash := "deadbeef" }], []⟩ = true ∧
    "deadbeef" ≠ (create_genesis_block ts0).hash := by
  refine ⟨rfl, ?_⟩
  intro e
  have hl := congrArg String.length e
  have h64 : ((create_genesis_block ts0).hash).length = 64 := sha256hex_length _
  rw [h64] at hl
  exact absurd hl (by decide)

/-- C3: witness. The amended statement applied to the concrete reachable
two-block ledger: it verifies, and tampering with the stored hash of the
block at index 1 is detected. -/
theorem C3_witness :
    verify_chain bcMined = true ∧
    verify_chain ⟨bcMined.chain.set 1 { minedBlock with hash := "x" },
      bcMined.current_transactions⟩ = false := by
  have h := C3_tamper_detection bcMined reachable_bcMined
  refine ⟨h.1, ?_⟩
  have hi : (1 : Nat) < bcMined.chain.length := by decide
  have hget : bcMined.chain.get ⟨1, hi⟩ = minedBlock := rfl
  have := h.2.1 1 hi "x" (by rw [hget]; decide) (Or.inl (by omega))
  rw [hget] at this
  exact this

/-- C8: add_block appends exactly one block, built from the stored hash of
the previously last block and a snapshot of the pending buffer, and clears
the pending buffer exactly on success; consequently every reachable ledger
satisfies the linkage invariant relating each non-genesis block to its
predecessor. -/
theorem C8_add_block_invariant :
    (∀ (fuel : Nat) (ts : String) (bc bc2 : Blockchain) (last : Block),
      bc.chain.getLast? = some last → add_block fuel ts bc = some bc2 →
      bc2.chain = bc.chain ++ [bc2.chain.getLastD dummyBlock] ∧
      (bc2.chain.getLastD dummyBlock).previous_hash = last.hash ∧
      (bc2.chain.getLastD dummyBlock).transactions = bc.current_transactions ∧
      bc2.current_transactions = []) ∧
    (∀ bc : Blockchain, Reachable bc → List.Chain' linkedTo bc.chain) := by
  constructor
  · intro fuel ts bc bc2 last hlast hrun
    obtain ⟨e1, e2, e3, _, _, _, e7⟩ := add_block_spec fuel ts bc bc2 last hlast hrun
    exact ⟨e1, e2, e3, e7⟩
  · intro bc hr
    exact (reachable_invariant bc hr).2.2

/-- C8: witness. The invariant applied to the concrete successful add_block
run that produced the two-block ledger. -/
theorem C8_witness :
    bcMined.chain = (add_transaction "Alice" "Bob" 50 (Blockchain.init ts0)).chain ++
      [bcMined.chain.getLastD dummyBlock] ∧
    (bcMined.chain.getLastD dummyBlock).previous_hash = (create_genesis_block ts0).hash ∧
    (bcMined.chain.getLastD dummyBlock).transactions =
      (add_transaction "Alice" "Bob" 50 (Blockchain.init ts0)).current_transactions ∧
    bcMined.current_transactions = [] :=
  C8_add_block_invariant.1 1 ts1 (add_transaction "Alice" "Bob" 50 (Blockchain.init ts0))
    bcMined (create_genesis_block ts0) rfl add_block_mined

/-- Folding block by block equals folding the flattened transaction list. -/
theorem foldl_foldl_flatten {α β : Type} (f : β → α → β) :
    ∀ (L : List (List α)) (b : β),
      L.foldl (fun st l => l.foldl f st) b = L.flatten.foldl f b := by
  intro L
  induction L with
  | nil => intro b; rfl
  | cons l L ih =>
    intro b
    rw [List.flatten_cons, List.foldl_append, List.foldl_cons]
    exact ih _

/-- get_min_max_balance is the fold of its loop body over all transactions
of the chain in chain order. -/
theorem get_min_max_eq_fold (bc : Blockchain) (p : String) :
    get_min_max_balance bc p =
      (((chainTransactions bc).foldl (minMaxStep p) ⟨0, ⊥, 0⟩).min_balance,
       ((chainTransactions bc).foldl (minMaxStep p) ⟨0, ⊥, 0⟩).max_balance) := by
  simp only [get_min_max_balance]
  rw [chainTransactions, ← foldl_foldl_flatten, List.foldl_map]

/-- The three accumulators of the loop body, characterized: minimum of the
balances after each transaction, maximum of the same, final balance. -/
theorem minMax_foldl (p : String) : ∀ (l : List Transaction) (mn : Int) (mx : WithBot Int)
    (bal : Int),
    l.foldl (minMaxStep p) ⟨mn, mx, bal⟩ =
      ⟨(balancesAfter p bal l).foldl min mn, (balancesAfter p bal l).foldl pyMax mx,
       l.foldl (applyTx p) bal⟩ := by
  intro l
  induction l with
  | nil => intro mn mx bal; rfl
  | cons t l ih =>
    intro mn mx bal
    simp only [List.foldl_cons, balancesAfter]
    exact ih (min mn (applyTx p bal t)) (pyMax mx (applyTx p bal t)) (applyTx p bal t)

/-- Folding min over any integer list never exceeds the seed. -/
theorem foldl_min_le : ∀ (l : List Int) (mn : Int), l.foldl min mn ≤ mn := by
  intro l
  induction l with
  | nil => intro mn; exact le_refl mn
  | cons a l ih =>
    intro mn
    rw [List.foldl_cons]
    exact le_trans (ih (min mn a)) (min_le_left _ _)

/-- C1: amended characterization. get_min_max_balance returns the pair of
the fold of min, seeded at 0, and the fold of Python max, seeded at minus
infinity, over the cumulative balances observed after each transaction in
chain order; the returned minimum is always at most 0, but the returned
maximum ranges only over post-transaction balances, so it can be negative
and is minus infinity on a chain without transactions. -/
theorem C1_running_min_max (bc : Blockchain) (person : String) :
    get_min_max_balance bc person =
      ((runningBalances bc person).foldl min 0,
       (runningBalances bc person).foldl pyMax ⊥) ∧
    (get_min_max_balance bc person).1 ≤ 0 := by
  have h := get_min_max_eq_fold bc person
  rw [minMax_foldl] at h
  constructor
  · exact h
  · rw [h]
    exact foldl_min_le _ 0

set_option maxRecDepth 100000 in
/-- C1: counterexample to the claim as stated. On the reachable two-block
ledger holding the single transfer Alice to Bob of 50, the returned pair
for Alice is (-50, -50): the maximum is negative, refuting both the
seeded-at-0 maximum and the always-nonnegative maximum. -/
theorem C1_counterexample :
    Reachable bcMined ∧
    get_min_max_balance bcMined "Alice" = (-50, ((-50 : Int) : WithBot Int)) ∧
    ¬((0 : WithBot Int) ≤ (get_min_max_balance bcMined "Alice").2) :=
  ⟨reachable_bcMined, by decide, by decide⟩

/-- A transaction not involving the person leaves the balance unchanged. -/
theorem applyTx_uninvolved (p : String) (bal : Int) (t : Transaction)
    (h : t.sender ≠ p ∧ t.receiver ≠ p) : applyTx p bal t = bal := by
  simp [applyTx, h.1, h.2]

/-- Python max of the running maximum and a value absorbs a repeat of the
same value. -/
theorem pyMax_right_idem (m : WithBot Int) (b : Int) : pyMax (pyMax m b) b = pyMax m b := by
  cases m with
  | bot =>
    show pyMax (pyMax none b) b = pyMax none b
    simp [pyMax]
  | coe a =>
    show pyMax (pyMax (some a) b) b = pyMax (some a) b
    simp [pyMax, max_assoc]

/-- Folding the loop body over transactions that never involve the person:
the balance and minimum stay 0, and the maximum is updated with 0 once per
transaction. -/
theorem minMax_foldl_uninvolved (p : String) : ∀ (l : List Transaction) (mx : WithBot Int),
    (∀ t ∈ l, t.sender ≠ p ∧ t.receiver ≠ p) →
    l.foldl (minMaxStep p) ⟨0, mx, 0⟩ =
      ⟨0, if l = [] then mx else pyMax mx 0, 0⟩ := by
  intro l
  induction l with
  | nil => intro mx h; rfl
  | cons t l ih =>
    intro mx h
    have ht := h t (List.mem_cons_self t l)
    have hstep : minMaxStep p ⟨0, mx, 0⟩ t = ⟨0, pyMax mx 0, 0⟩ := by
      simp [minMaxStep, applyTx_uninvolved p 0 t ht]
    rw [List.foldl_cons, hstep, ih (pyMax mx 0) (fun t2 ht2 => h t2 (List.mem_cons_of_mem _ ht2))]
    rw [if_neg (List.cons_ne_nil t l)]
    by_cases hl : l = []
    · rw [if_pos hl]
    · rw [if_neg hl, pyMax_right_idem]

/-- C10: get_min_max_balance updates its running minimum and maximum after
every transaction, including ones not involving the queried person; for a
person appearing in no transaction it returns (0, 0) whenever the chain
holds at least one transaction, and (0, minus infinity) when the chain
holds no transaction at all. -/
theorem C10_uninvolved_person (bc : Blockchain) (p : String)
    (h : ∀ b ∈ bc.chain, ∀ t ∈ b.transactions, t.sender ≠ p ∧ t.receiver ≠ p) :
    ((∃ b ∈ bc.chain, b.transactions ≠ []) →
      get_min_max_balance bc p = (0, ((0 : Int) : WithBot Int))) ∧
    ((∀ b ∈ bc.chain, b.transactions = []) → get_min_max_balance bc p = (0, ⊥)) := by
  have hall : ∀ t ∈ chainTransactions bc, t.sender ≠ p ∧ t.receiver ≠ p := by
    intro t ht
    rw [chainTransactions, List.mem_flatten] at ht
    obtain ⟨l, hl, htl⟩ := ht
    rw [List.mem_map] at hl
    obtain ⟨b, hb, rfl⟩ := hl
    exact h b hb t htl
  have hgm := get_min_max_eq_fold bc p
  rw [minMax_foldl_uninvolved p (chainTransactions bc) ⊥ hall] at hgm
  constructor
  · intro hex
    obtain ⟨b, hb, hbne⟩ := hex
    have hne : chainTransactions bc ≠ [] := by
      intro hnil
      rw [chainTransactions, List.flatten_eq_nil_iff] at hnil
      exact hbne (hnil b.transactions (List.mem_map_of_mem Block.transactions hb))
    rw [if_neg hne] at hgm
    exact hgm
  · intro hempty
    have hnil : chainTransactions bc = [] := by
      rw [chainTransactions, List.flatten_eq_nil_iff]
      intro l hl
      rw [List.mem_map] at hl
      obtain ⟨b, hb, rfl⟩ := hl
      exact hempty b hb
    rw [if_pos hnil] at hgm
    exact hgm

/-- C10: witness. A person appearing in no transaction, on a ledger with
one transaction and on a ledger with none. -/
theorem C10_witness :
    get_min_max_balance ⟨[plainTxBlock], []⟩ "Zoe" = (0, ((0 : Int) : WithBot Int)) ∧
    get_min_max_balance emptyTxLedger "Zoe" = (0, ⊥) :=
  ⟨(C10_uninvolved_person ⟨[plainTxBlock], []⟩ "Zoe" (by decide)).1 (by decide),
   (C10_uninvolved_person emptyTxLedger "Zoe" (by decide)).2 (by decide)⟩

/-- Decoding the record produced by to_dict reconstructs the block
exactly. -/
theorem from_dict_to_dict (b : Block) : from_dict (to_dict b) = Except.ok b := rfl

/-- Decoding an encoded chain reconstructs it blockwise. -/
theorem mapM_from_dict_to_dict : ∀ l : List Block,
    (l.map to_dict).mapM from_dict = Except.ok l := by
  intro l
  induction l with
  | nil => rfl
  | cons b l ih =>
    rw [List.map_cons, List.mapM_cons, from_dict_to_dict, ih]
    rfl

/-- C7: round-trip. Encoding every block with to_dict and decoding with
from_dict reproduces the chain exactly, so on any untampered chain (both
verifications true) the decoded chain passes verify_chain and
verify_all_transactions. -/
theorem C7_roundtrip :
    (∀ b : Block, from_dict (to_dict b) = Except.ok b) ∧
    (∀ bc : Blockchain, verify_chain bc = true → verify_all_transactions bc = true →
      (bc.chain.map to_dict).mapM from_dict = Except.ok bc.chain ∧
      verify_chain ⟨bc.chain, []⟩ = true ∧
      verify_all_transactions ⟨bc.chain, []⟩ = true) := by
  refine ⟨from_dict_to_dict, ?_⟩
  intro bc hv hvt
  exact ⟨mapM_from_dict_to_dict bc.chain, hv, hvt⟩

/-- C7: witness. The round-trip applied to the freshly built one-block
ledger at ts0, which passes both verifications. -/
theorem C7_witness :
    ((Blockchain.init ts0).chain.map to_dict).mapM from_dict =
      Except.ok (Blockchain.init ts0).chain ∧
    verify_chain ⟨(Blockchain.init ts0).chain, []⟩ = true ∧
    verify_all_transactions ⟨(Blockchain.init ts0).chain, []⟩ = true :=
  C7_roundtrip.2 (Blockchain.init ts0) rfl rfl

/-- C9: reconstructing a block from a record missing any of the six
required keys raises (KeyError), modelled as an error value distinct by
type from the boolean false of integrity checks, and never yields a block
with defaulted fields. -/
theorem C9_from_dict_missing_key (d : BlockDict)
    (hmiss : d.timestamp = none ∨ d.transactions = none ∨ d.previous_hash = none ∨
      d.nonce = none ∨ d.hash = none ∨ d.merkle_root = none) :
    isError (from_dict d) = true ∧ ∀ b : Block, from_dict d ≠ Except.ok b := by
  have herr : isError (from_dict d) = true := by
    obtain ⟨ts, txs, prev, nonce, h, root⟩ := d
    cases txs <;> cases prev <;> cases ts <;> cases nonce <;> cases h <;> cases root <;>
      simp_all [from_dict, getKey, isError, Bind.bind, Except.bind]
  refine ⟨herr, ?_⟩
  intro b hb
  rw [hb] at herr
  exact absurd herr (by simp [isError])

/-- C9: witness. The empty record raises at its first key access. -/
theorem C9_witness : isError (from_dict emptyDict) = true :=
  (C9_from_dict_missing_key emptyDict (Or.inl rfl)).1
